import Mathlib

/-!
Verification of the profiling-analysis utilities (notebooks/utils.py).

The Python module computes percent-replicating / percent-matching scores
for image-based profiling data.  We give a shallow embedding over ℚ:

  * numpy / pandas floats are idealised as exact rationals; NaN is
    modelled by `Option ℚ` (`none` = NaN);
  * a pandas DataFrame is modelled per function by a list of row records
    carrying exactly the fields the function reads (and, for the plate
    sphering orchestration, by a full column-labelled table `PTable`);
  * `random.choices` is modelled by an index stream `s : ℕ → ℕ`, the
    j-th uniform draw from a list `l` being `l[s j % l.length]` (with
    replacement, as in Python);
  * the square root inside Pearson correlation is kept abstract as a
    parameter `sq : ℚ → ℚ`; theorems that need it assume only
    `0 ≤ q → sq (q * q) = q`, which the exact real square root (and
    `Rat.sqrt` on perfect squares) satisfies.  Since over the reals
    `sqrt a * sqrt b = sqrt (a * b)` for nonnegative `a b`, the numpy
    denominator `sqrt dx * sqrt dy` is embedded as `sq (dx * dy)`;
  * the SVD of scipy and the knee locator of the kneed library are
    external numeric oracles: they enter as parameters
    `svd : Mat → Mat × List ℚ` and `elbow : List ℚ → ℕ`.
-/

/-- Matrices as lists of row vectors over ℚ (numpy 2-d arrays). -/
abbrev Mat := List (List ℚ)

/-- Dot product of two vectors (truncating, as `zipWith`). -/
def dotL (a b : List ℚ) : ℚ := (List.zipWith (fun x y => x * y) a b).sum

/-- Column j of a matrix (numpy indexing; out-of-range entries default 0). -/
def colD (X : Mat) (j : ℕ) : List ℚ := X.map (fun r => r.getD j 0)

/-- Transpose of a rectangular matrix. -/
def transposeM (X : Mat) : Mat := (List.range (X.headD []).length).map (colD X)

/-- Matrix product (np.dot on 2-d arrays, assuming compatible shapes). -/
def matMul (A B : Mat) : Mat := A.map (fun r => (transposeM B).map (fun c => dotL r c))

/-- Square diagonal matrix with the given diagonal (np.diag of a vector). -/
def diagM (v : List ℚ) : Mat :=
  (List.range v.length).map (fun i => (List.range v.length).map (fun j => if i = j then v.getD i 0 else 0))

/-- Diagonal of a matrix (np.diag of a 2-d array). -/
def diagOf (M : Mat) : List ℚ := (List.range M.length).map (fun i => (M.getD i []).getD i 0)

/-- Mean of a list (np.mean over a 1-d array; empty mean is 0/0 = 0 here,
never used on empty input by the claims). -/
def listMean (l : List ℚ) : ℚ := l.sum / (l.length : ℚ)

/-- Column means, i.e. X.mean(axis=0). -/
def colMeans (X : Mat) : List ℚ := (transposeM X).map listMean

/-- Centering of a vector. -/
def centeredL (x : List ℚ) : List ℚ := x.map (fun v => v - listMean x)

/-- Pearson correlation of two equal-length vectors; `none` is the NaN
produced by numpy when one of the vectors has zero variance (0/0).
The real-number denominator sqrt dx * sqrt dy is written sq (dx * dy). -/
def pearsonOpt (sq : ℚ → ℚ) (x y : List ℚ) : Option ℚ :=
  let cx := centeredL x
  let cy := centeredL y
  let dx := dotL cx cx
  let dy := dotL cy cy
  if dx = 0 ∨ dy = 0 then none else some (dotL cx cy / sq (dx * dy))

/-- One entry of np.corrcoef, which clips the result to [-1, 1]. -/
def corrcoefEntry (sq : ℚ → ℚ) (x y : List ℚ) : Option ℚ :=
  (pearsonOpt sq x y).map (fun r => max (-1) (min 1 r))

/-- Full np.corrcoef matrix of a list of row vectors (rows = variables). -/
def corrcoefM (sq : ℚ → ℚ) (R : Mat) : List (List (Option ℚ)) :=
  R.map (fun x => R.map (fun y => corrcoefEntry sq x y))

/-- Helper of np.fill_diagonal: entry i of row i becomes NaN. -/
def fillDiagGo : List (List (Option ℚ)) → ℕ → List (List (Option ℚ))
  | [], _ => []
  | r :: rs, i => r.set i none :: fillDiagGo rs (i + 1)

/-- np.fill_diagonal(M, np.nan). -/
def fillDiagNaN (M : List (List (Option ℚ))) : List (List (Option ℚ)) := fillDiagGo M 0

/-- Median of a list of rationals (np.median: sort, middle element or
mean of the two middle elements). -/
def medianQ (l : List ℚ) : ℚ :=
  let s := List.insertionSort (fun a b => a ≤ b) l
  let n := l.length
  if n % 2 = 1 then s.getD (n / 2) 0
  else (s.getD (n / 2 - 1) 0 + s.getD (n / 2) 0) / 2

/-- np.nanmedian over a flattened collection: NaNs dropped, median of the
rest; all-NaN (or empty) input yields NaN. -/
def nanmedianL (l : List (Option ℚ)) : Option ℚ :=
  let v := l.filterMap id
  if v = [] then none else some (medianQ v)

/-- Percentile with linear interpolation (np.percentile on a 1-d array). -/
def percentileQ (q : ℚ) (l : List ℚ) : ℚ :=
  let s := List.insertionSort (fun a b => a ≤ b) l
  let pos := q / 100 * ((l.length : ℚ) - 1)
  s.getD pos.floor.toNat 0 + (pos - pos.floor) * (s.getD pos.ceil.toNat 0 - s.getD pos.floor.toNat 0)

/-- np.nanpercentile: NaNs dropped; all-NaN input yields NaN. -/
def nanpercentileL (q : ℚ) (l : List (Option ℚ)) : Option ℚ :=
  let v := l.filterMap id
  if v = [] then none else some (percentileQ q v)

/-- pandas .unique(): distinct values in order of first occurrence. -/
def uniqueFirst [DecidableEq α] (l : List α) : List α :=
  l.foldl (fun acc x => if x ∈ acc then acc else acc ++ [x]) []

/-! ## Column conventions (utils.get_metacols / get_featurecols)

Column names are Python strings, embedded as lists of characters so that
prefix tests are the plain `List.isPrefixOf`. -/

/-- The metadata name marker with underscore, as in get_metacols. -/
def metaU : List Char := ("Metadata_").toList

/-- The metadata name marker without underscore, as in get_featurecols. -/
def metaB : List Char := ("Metadata").toList

/-- get_metacols: columns whose name starts with "Metadata_". -/
def get_metacols (cols : List (List Char)) : List (List Char) :=
  cols.filter (fun c => metaU.isPrefixOf c)

/-- get_featurecols: columns whose name does NOT start with "Metadata". -/
def get_featurecols (cols : List (List Char)) : List (List Char) :=
  cols.filter (fun c => !(metaB.isPrefixOf c))

/-! ## remove_negcon_empty_wells

The function only reads Metadata_control_type and Metadata_broad_sample,
so a row is embedded as those two (nullable) fields.  A pandas query
`x != "negcon"` keeps NaN entries (NaN != string is True), and
`dropna(subset=[col])` drops exactly the rows whose entry is NaN. -/

structure Well where
  ctype : Option String
  broad : Option String
deriving DecidableEq

/-- remove_negcon_empty_wells: query control type != "negcon", then drop
rows with missing Metadata_broad_sample (reset_index is identity here). -/
def remove_negcon_empty_wells (df : List Well) : List Well :=
  (df.filter (fun r => !(r.ctype == some ("negcon")))).filter (fun r => !(r.broad == none))

/-! ## percent_score -/

/-- Result of percent_score: a pair (score, threshold) for the right/left
modes, or a triple (score, 95th, 5th) for mode "both".  Scores and
thresholds are NaN-able floats. -/
inductive PSRes
  | two (score : Option ℚ) (thr : Option ℚ)
  | three (score : Option ℚ) (thr95 : Option ℚ) (thr5 : Option ℚ)
deriving DecidableEq

/-- Elementwise numpy comparison a > b: any NaN compares False. -/
def gtO : Option ℚ → Option ℚ → Bool
  | some a, some b => decide (b < a)
  | _, _ => false

/-- Elementwise numpy comparison a < b: any NaN compares False. -/
def ltO : Option ℚ → Option ℚ → Bool
  | some a, some b => decide (a < b)
  | _, _ => false

/-- np.mean of a boolean mask cast to float: the fraction of True entries;
the mean of an empty array is NaN. -/
def fracTrue (l : List Bool) : Option ℚ :=
  if l.length = 0 then none else some ((l.count true : ℚ) / (l.length : ℚ))

/-- Float addition where NaN absorbs (NaN + x = NaN). -/
def addO : Option ℚ → Option ℚ → Option ℚ
  | some a, some b => some (a + b)
  | _, _ => none

/-- percent_score(null_dist, corr_dist, how): percentile threshold(s) of
the null distribution and the fraction of the correlation distribution
beyond them; an unrecognised mode falls through every branch and the
Python function returns None. -/
def percent_score (null_dist corr_dist : List (Option ℚ)) (how : String) : Option PSRes :=
  if how = "right" then
    let p95 := nanpercentileL 95 null_dist
    some (PSRes.two (fracTrue (corr_dist.map (fun c => gtO c p95))) p95)
  else if how = "left" then
    let p5 := nanpercentileL 5 null_dist
    some (PSRes.two (fracTrue (corr_dist.map (fun c => ltO c p5))) p5)
  else if how = "both" then
    let p95 := nanpercentileL 95 null_dist
    let p5 := nanpercentileL 5 null_dist
    some (PSRes.three
      (addO (fracTrue (corr_dist.map (fun c => gtO c p95)))
            (fracTrue (corr_dist.map (fun c => ltO c p5))))
      p95 p5)
  else none

/-! ## corr_between_replicates

The function groups by one metadata key and correlates the feature part
of each group, so a row is embedded as the grouping key together with its
feature vector. -/

structure RepRow (K : Type) where
  key : K
  feats : List ℚ

/-- The group of rows with a given key value. -/
def groupRows [DecidableEq K] (df : List (RepRow K)) (k : K) : List (RepRow K) :=
  df.filter (fun r => decide (r.key = k))

/-- The keys of pandas groupby, sorted ascending (pandas sorts groups). -/
def groupKeys [DecidableEq K] [LinearOrder K] (df : List (RepRow K)) : List K :=
  List.insertionSort (fun a b => a ≤ b) (uniqueFirst (df.map (fun r => r.key)))

/-- Statistic of one group: NaN for a single row, otherwise the NaN-median
of the pairwise correlation matrix with NaN written into the diagonal. -/
def replicateStat (sq : ℚ → ℚ) (group : List (RepRow K)) : Option ℚ :=
  if group.length = 1 then none
  else nanmedianL (fillDiagNaN (corrcoefM sq (group.map (fun r => r.feats)))).flatten

/-- corr_between_replicates: one statistic per group, in group order. -/
def corr_between_replicates [DecidableEq K] [LinearOrder K]
    (sq : ℚ → ℚ) (df : List (RepRow K)) : List (Option ℚ) :=
  (groupKeys df).map (fun k => replicateStat sq (groupRows df k))

/-! ## corr_between_non_replicates

Rows carry the identity key (metadata_compound_name) and features.  The
rejection-sampling while-loop consumes one draw of `n_replicates` row
indices per iteration; we pass the stream of draws explicitly.  A draw of
random.choices(range(len(df)), k) at loop iteration j from index stream s
is `(List.range k).map (fun t => s (k * j + t) % df.length)`. -/

structure NRRow (K : Type) where
  ident : K
  feats : List ℚ

/-- Draw rows df.loc[idxs] (duplicate labels select duplicate rows). -/
def drawRows (df : List (NRRow K)) (idxs : List ℕ) : List (NRRow K) :=
  idxs.filterMap (fun i => df.get? i)

/-- Acceptance test of one draw: the number of distinct identity values
among the drawn rows equals n_replicates. -/
def nrAccept [DecidableEq K] (df : List (NRRow K)) (k : ℕ) (idxs : List ℕ) : Bool :=
  ((drawRows df idxs).map (fun r => r.ident)).dedup.length == k

/-- Median null statistic of an accepted draw (same computation as one
replicate group). -/
def nrStat (sq : ℚ → ℚ) (sample : List (NRRow K)) : Option ℚ :=
  nanmedianL (fillDiagNaN (corrcoefM sq (sample.map (fun r => r.feats)))).flatten

/-- One draw of random.choices(range(len(df)), k=k) at loop iteration j. -/
def nrDraw (df : List (NRRow K)) (k : ℕ) (s : ℕ → ℕ) (j : ℕ) : List ℕ :=
  (List.range k).map (fun t => s (k * j + t) % df.length)

/-- One iteration of the while-loop: while the null list is shorter than
n_samples, accept a draw iff it has n_replicates distinct identities,
appending its median statistic. -/
def nrStep [DecidableEq K] (sq : ℚ → ℚ) (df : List (NRRow K)) (n_samples n_replicates : ℕ)
    (acc : List (Option ℚ)) (idxs : List ℕ) : List (Option ℚ) :=
  if acc.length < n_samples then
    if nrAccept df n_replicates idxs then acc ++ [nrStat sq (drawRows df idxs)] else acc
  else acc

/-- corr_between_non_replicates over an explicit list of draws. -/
def corr_between_non_replicates [DecidableEq K]
    (sq : ℚ → ℚ) (df : List (NRRow K)) (n_samples n_replicates : ℕ)
    (draws : List (List ℕ)) : List (Option ℚ) :=
  draws.foldl (nrStep sq df n_samples n_replicates) []

/-! ## Cross-modality correlation engine

Rows carry the modality tag, the common perturbation key, the
perturbation name and the feature vector. -/

structure ModRow (K : Type) where
  modality : String
  common : K
  pert : String
  feats : List ℚ

/-- np.intersect1d on the common-key columns: sorted distinct values
present in both tables. -/
def commonGroups [DecidableEq K] [LinearOrder K] (m1df m2df : List (ModRow K)) : List K :=
  List.insertionSort (fun a b => a ≤ b)
    ((uniqueFirst (m1df.map (fun r => r.common))).filter
      (fun v => decide (v ∈ m2df.map (fun r => r.common))))

/-- The pair random.choices(list_common_perturbation_groups, k=2) drawn at
loop iteration i, from index stream s. -/
def modalityDrawPair [Inhabited K] (common : List K) (s : ℕ → ℕ) (i : ℕ) : K × K :=
  (common.getD (s (2 * i) % common.length) default,
   common.getD (s (2 * i + 1) % common.length) default)

/-- Cross-correlation block statistic: np.corrcoef of the stacked blocks,
sliced to the A-rows x B-columns corner, then np.nanmedian. -/
def crossStat (sq : ℚ → ℚ) (A B : Mat) : Option ℚ :=
  nanmedianL (A.map (fun x => B.map (fun y => corrcoefEntry sq x y))).flatten

/-- All statistics contributed by one draw (p1, p2) of common keys: one
per pair of distinct perturbation names found in the two selections. -/
def modalityPairStats [DecidableEq K] (sq : ℚ → ℚ)
    (d1 d2 : List (ModRow K)) (p : K × K) : List (Option ℚ) :=
  let m1p := d1.filter (fun r => decide (r.common = p.1))
  let m2p := d2.filter (fun r => decide (r.common = p.2))
  ((uniqueFirst (m1p.map (fun r => r.pert))).map (fun s1 =>
    (uniqueFirst (m2p.map (fun r => r.pert))).map (fun s2 =>
      crossStat sq
        ((m1p.filter (fun r => decide (r.pert = s1))).map (fun r => r.feats))
        ((m2p.filter (fun r => decide (r.pert = s2))).map (fun r => r.feats))))).flatten

/-- null_correlation_between_modalities: n_samples loop iterations; each
draws two common keys with random.choices (with replacement) and appends
the cross statistics of every perturbation pair found. -/
def null_correlation_between_modalities [DecidableEq K] [LinearOrder K] [Inhabited K]
    (sq : ℚ → ℚ) (m1df m2df : List (ModRow K)) (mod1 mod2 : String)
    (n_samples : ℕ) (s : ℕ → ℕ) : List (Option ℚ) :=
  let common := commonGroups m1df m2df
  let merged := m1df ++ m2df
  let d1 := merged.filter (fun r => r.modality == mod1)
  let d2 := merged.filter (fun r => r.modality == mod2)
  (List.range n_samples).foldl (fun acc i =>
    acc ++ modalityPairStats sq d1 d2 (modalityDrawPair common s i)) []

/-! ## ZCA_corr transformer

fit stores the mean vector and the whitening (sphering) matrix; the SVD
and the kneed elbow locator are oracle parameters.  transform models the
numpy broadcasting of (X - mean) and the shape check of np.dot. -/

structure ZCAState where
  mean_ : List ℚ
  sphere_ : Mat

/-- estimate_regularization: the singular value at the kneed elbow index,
divided by 10. -/
def estimate_regularization (elbow : List ℚ → ℕ) (T : List ℚ) : ℚ :=
  T.getD (elbow T) 0 / 10

/-- Lower clip of a vector (np.clip with only a minimum). -/
def clipFloor (lo : ℚ) (v : List ℚ) : List ℚ := v.map (fun x => max x lo)

/-- pandas DataFrame.corr() of the centered data with np.nan_to_num:
pairwise Pearson correlation of the columns, NaN entries replaced by 0. -/
def corrMat (sq : ℚ → ℚ) (Xc : Mat) : Mat :=
  (transposeM Xc).map (fun a => (transposeM Xc).map (fun b => (pearsonOpt sq a b).getD 0))

/-- ZCA_corr.fit: center, covariance with divisor n-1, its diagonal V,
correlation matrix, SVD, elbow regularization, and the whitening matrix
G . diag(1/sqrt(clip T)) . G^t . diag(1/sqrt(clip V)). -/
def ZCA_fit (sq : ℚ → ℚ) (svd : Mat → Mat × List ℚ) (elbow : List ℚ → ℕ) (X : Mat) : ZCAState :=
  let mean := colMeans X
  let Xc := X.map (fun r => List.zipWith (fun a b => a - b) r mean)
  let cov := (matMul (transposeM Xc) Xc).map (fun r => r.map (fun x => x / ((X.length : ℚ) - 1)))
  let V := diagOf cov
  let corr := corrMat sq Xc
  let GT := svd corr
  let regu := estimate_regularization elbow GT.2
  let tv := (clipFloor regu GT.2).map sq
  let t_inv := diagM (tv.map (fun x => 1 / x))
  let v_inv := diagM ((clipFloor (1 / 1000) V).map (fun x => 1 / sq x))
  { mean_ := mean, sphere_ := matMul (matMul (matMul GT.1 t_inv) (transposeM GT.1)) v_inv }

/-- numpy broadcasting of row - mean inside (X - self.mean_): defined when
the lengths agree or either length is 1 (stretched), otherwise a
broadcast ValueError. -/
def rowSub (r m : List ℚ) : Except String (List ℚ) :=
  if r.length = m.length then Except.ok (List.zipWith (fun a b => a - b) r m)
  else if r.length = 1 then Except.ok (m.map (fun x => r.headD 0 - x))
  else if m.length = 1 then Except.ok (r.map (fun x => x - m.headD 0))
  else Except.error ("broadcast")

/-- X - mean over all rows. -/
def npSub (X : Mat) (m : List ℚ) : Except String Mat :=
  X.mapM (fun r => rowSub r m)

/-- np.dot with its inner-dimension check. -/
def npDot (A B : Mat) : Except String Mat :=
  if A.all (fun r => r.length == B.length) then Except.ok (matMul A B) else Except.error ("shapes")

/-- ZCA_corr.transform: check_is_fitted raises if fit never ran, then
(X - mean) . sphere^t with numpy broadcasting semantics. -/
def ZCA_transform (st : Option ZCAState) (X : Mat) : Except String Mat :=
  match st with
  | none => Except.error ("not fitted")
  | some z => do
      let Xc ← npSub X z.mean_
      npDot Xc (transposeM z.sphere_)

/-! ## sphere_plate_zca_corr

Full column-labelled table model: named columns, a pandas row index and
cell values that are numbers, strings or NaN. -/

inductive Val
  | num (q : ℚ)
  | str (s : String)
  | na
deriving DecidableEq

structure PTable where
  cols : List (List Char)
  index : List Int
  rows : List (List Val)

/-- The Metadata_control_type column name. -/
def ctlCol : List Char := ("Metadata_control_type").toList

/-- Position of a column name in the column list (first occurrence; the
length of the list when absent, where getD then yields NaN). -/
def idxOf [DecidableEq α] (c : α) : List α → ℕ
  | [] => 0
  | a :: t => if a = c then 0 else idxOf c t + 1

/-- Select named columns of rows (missing columns read as NaN). -/
def selectColsR (cols : List (List Char)) (rows : List (List Val)) (cs : List (List Char)) :
    List (List Val) :=
  rows.map (fun r => cs.map (fun c => r.getD (idxOf c cols) Val.na))

/-- A cell coerced to a float; to_numpy on non-numeric data fails here. -/
def valToQ : Val → Except String ℚ
  | Val.num q => Except.ok q
  | _ => Except.error ("non-numeric")

/-- DataFrame.to_numpy() on a block expected to be numeric. -/
def toMatE (rows : List (List Val)) : Except String Mat :=
  rows.mapM (fun r => r.mapM valToQ)

/-- Column of a table by name, as cell values. -/
def colValues (t : PTable) (c : List Char) : List Val :=
  t.rows.map (fun r => r.getD (idxOf c t.cols) Val.na)

/-- sphere_plate_zca_corr: fit ZCA_corr on the negcon feature block, apply
it to the whole plate's feature block, reassemble transformed features
with the untouched metadata columns, and assert the shape is unchanged. -/
def sphere_plate_zca_corr (sq : ℚ → ℚ) (svd : Mat → Mat × List ℚ) (elbow : List ℚ → ℕ)
    (t : PTable) : Except String PTable := do
  let featcols := get_featurecols t.cols
  let metacols := get_metacols t.cols
  let dmsoRows := t.rows.filter (fun r => r.getD (idxOf ctlCol t.cols) Val.na == Val.str ("negcon"))
  let dmsoVals ← toMatE (selectColsR t.cols dmsoRows featcols)
  let allVals ← toMatE (selectColsR t.cols t.rows featcols)
  let sphereed ← ZCA_transform (some (ZCA_fit sq svd elbow dmsoVals)) allVals
  let combinedRows := List.zipWith (fun a b => a ++ b)
    (sphereed.map (fun r => r.map Val.num)) (selectColsR t.cols t.rows metacols)
  let combined : PTable := { cols := featcols ++ metacols, index := t.index, rows := combinedRows }
  if combined.rows.length = t.rows.length ∧ combined.cols.length = t.cols.length then
    Except.ok combined
  else Except.error ("assert shape")

/-! ## Spec-side definitions

These follow the wording of the specification (not the code) and are
compared with the embedded source functions in the claim theorems. -/

/-- Modelled from the spec wording of claim C3: remove exactly the rows
that are BOTH flagged negcon AND missing the perturbation identifier. -/
def specRemoveNegconEmpty (df : List Well) : List Well :=
  df.filter (fun r => !(r.ctype == some ("negcon") && r.broad == none))

/-- Helper of the spec reading of the replicate statistic: the diagonal
entry of each row is excluded (removed) rather than set to NaN. -/
def offDiagGo : List (List (Option ℚ)) → ℕ → List (List (Option ℚ))
  | [], _ => []
  | r :: rs, i => r.eraseIdx i :: offDiagGo rs (i + 1)

/-- Spec wording of the per-group statistic of claim C6: the NaN-ignoring
median of the off-diagonal entries of the group's pairwise Pearson
correlation matrix, with the diagonal excluded; one row gives NaN. -/
def specReplicateStat (sq : ℚ → ℚ) (group : List (RepRow K)) : Option ℚ :=
  if group.length = 1 then none
  else nanmedianL (offDiagGo (corrcoefM sq (group.map (fun r => r.feats))) 0).flatten

/-- Spec wording of the whitening matrix of claim C5:
G . diag(1/sqrt(T clipped below at the elbow singular value / 10)) . G^t
. diag(1/sqrt(per-feature variance clipped below at 1e-3)), where (G, T)
is the SVD of the NaN/Inf-zeroed Pearson correlation matrix of the
centered reference data and the variance divisor is n - 1. -/
def specWhiteningMatrix (sq : ℚ → ℚ) (svd : Mat → Mat × List ℚ) (elbow : List ℚ → ℕ)
    (X : Mat) : Mat :=
  let n := X.length
  let mean := colMeans X
  let Xc := X.map (fun r => List.zipWith (fun a b => a - b) r mean)
  let V := (List.range (X.headD []).length).map
    (fun j => ((colD Xc j).map (fun x => x * x)).sum / ((n : ℚ) - 1))
  let GT := svd (corrMat sq Xc)
  let clippedT := GT.2.map (fun x => max x (GT.2.getD (elbow GT.2) 0 / 10))
  let clippedV := V.map (fun x => max x (1 / 1000))
  matMul (matMul (matMul GT.1 (diagM (clippedT.map (fun x => 1 / sq x)))) (transposeM GT.1))
    (diagM (clippedV.map (fun x => 1 / sq x)))

/-! ## Generic helper lemmas -/

/-- Transitivity of the boolean prefix test, specialised to strings that
share the "Metadata" stem. -/
theorem metaU_imp_metaB {c : List Char} (h : metaU.isPrefixOf c = true) :
    metaB.isPrefixOf c = true := by
  rw [ List.isPrefixOf_iff_prefix] at h ⊢
  exact List.IsPrefix.trans ⟨("_").toList, by decide⟩ h

/-- The real square root satisfies sqrt (q * q) = q for 0 ≤ q; so does
Rat.sqrt on rational squares, which instantiates the abstract sq. -/
theorem ratSqrt_mul_self (q : ℚ) (h : 0 ≤ q) : Rat.sqrt (q * q) = q := by
  rw [Rat.sqrt_eq, abs_of_nonneg h]

/-- C10: for every null distribution and observed distribution, a mode
outside left / right / both falls through every branch of percent_score
and the function returns None rather than raising or scoring. -/
theorem percent_score_unknown_mode (null_dist corr_dist : List (Option ℚ)) (how : String)
    (h1 : how ≠ "right") (h2 : how ≠ "left") (h3 : how ≠ "both") :
    percent_score null_dist corr_dist how = none := by
  simp [percent_score, h1, h2, h3]

/-- Witness for C10 at a concrete unknown mode. -/
theorem percent_score_unknown_mode_witness :
    percent_score [] [] ("center") = none :=
  percent_score_unknown_mode [] [] ("center") (by decide) (by decide) (by decide)

/-- C7: percent_score with mode "both" returns the sum of the right-mode
and left-mode scores on the same inputs, and reports exactly the right
mode's threshold (the 95th NaN-ignoring percentile of the null) and the
left mode's threshold (the 5th percentile). -/
theorem percent_score_both_eq_sum (null_dist corr_dist : List (Option ℚ)) :
    ∃ rs ls,
      percent_score null_dist corr_dist ("right")
          = some (PSRes.two rs (nanpercentileL 95 null_dist))
      ∧ percent_score null_dist corr_dist ("left")
          = some (PSRes.two ls (nanpercentileL 5 null_dist))
      ∧ percent_score null_dist corr_dist ("both")
          = some (PSRes.three (addO rs ls) (nanpercentileL 95 null_dist)
              (nanpercentileL 5 null_dist)) := by
  refine ⟨fracTrue (corr_dist.map (fun c => gtO c (nanpercentileL 95 null_dist))),
    fracTrue (corr_dist.map (fun c => ltO c (nanpercentileL 5 null_dist))), ?_, ?_, ?_⟩ <;>
    simp [percent_score]

/-- C3 counterexample: a negcon row that HAS a perturbation identifier is
removed by the code, while the claim predicts it is retained. -/
theorem remove_negcon_counterexample :
    remove_negcon_empty_wells [⟨some ("negcon"), some ("BRD-1")⟩] = []
    ∧ specRemoveNegconEmpty [⟨some ("negcon"), some ("BRD-1")⟩]
        = [⟨some ("negcon"), some ("BRD-1")⟩] := by
  exact ⟨by decide, by decide⟩

/-- C3 amended: the filter removes exactly the rows that are flagged
negcon OR miss the perturbation identifier; a row is retained iff it is
not negcon-typed AND has an identifier. -/
theorem remove_negcon_removes_union (df : List Well) :
    remove_negcon_empty_wells df
      = df.filter (fun r => !(r.ctype == some ("negcon")) && !(r.broad == none)) := by
  rw [remove_negcon_empty_wells, List.filter_filter]
  exact List.filter_congr (fun r _ => by rw [Bool.and_comm])

/-- C9 counterexample: a column whose name starts with "Metadata" but not
with "Metadata_" is classified neither as metadata nor as feature, so the
two column lists do not cover the table's columns. -/
theorem metacols_featurecols_not_partition :
    get_metacols [("MetadataX").toList] = []
    ∧ get_featurecols [("MetadataX").toList] = []
    ∧ ([("MetadataX").toList] : List (List Char)) ≠ [] := by
  exact ⟨by decide, by decide, by decide⟩

/-- C9 amended: the two lists are always disjoint, and they partition the
columns exactly when no column name starts with "Metadata" without
starting with "Metadata_" (the two prefix conventions differ by the
underscore). -/
theorem metacols_featurecols_partition (cols : List (List Char))
    (h : ∀ c ∈ cols, metaB.isPrefixOf c = true → metaU.isPrefixOf c = true) :
    (∀ c, ¬(c ∈ get_metacols cols ∧ c ∈ get_featurecols cols))
    ∧ (∀ c ∈ cols,
        (c ∈ get_metacols cols ∧ c ∉ get_featurecols cols)
        ∨ (c ∈ get_featurecols cols ∧ c ∉ get_metacols cols)) := by
  constructor
  · rintro c ⟨hm, hf⟩
    rw [get_metacols, List.mem_filter] at hm
    rw [get_featurecols, List.mem_filter] at hf
    have hb := metaU_imp_metaB hm.2
    simp [hb] at hf
  · intro c hc
    by_cases hp : metaU.isPrefixOf c = true
    · left
      constructor
      · rw [get_metacols, List.mem_filter]; exact ⟨hc, hp⟩
      · rw [get_featurecols, List.mem_filter]
        simp [metaU_imp_metaB hp]
    · right
      have hbp : metaB.isPrefixOf c = false := by
        rcases Bool.eq_false_or_eq_true (metaB.isPrefixOf c) with hb | hb
        · exact absurd (h c hc hb) hp
        · exact hb
      constructor
      · rw [get_featurecols, List.mem_filter]
        simp [hbp, hc]
      · rw [get_metacols, List.mem_filter]
        simp [hp]

/-- Witness for C9 amended at a concrete well-formed column list. -/
theorem metacols_featurecols_partition_witness :
    (∀ c, ¬(c ∈ get_metacols [ctlCol, ("f1").toList] ∧ c ∈ get_featurecols [ctlCol, ("f1").toList]))
    ∧ (∀ c ∈ [ctlCol, ("f1").toList],
        (c ∈ get_metacols [ctlCol, ("f1").toList] ∧ c ∉ get_featurecols [ctlCol, ("f1").toList])
        ∨ (c ∈ get_featurecols [ctlCol, ("f1").toList] ∧ c ∉ get_metacols [ctlCol, ("f1").toList])) :=
  metacols_featurecols_partition [ctlCol, ("f1").toList] (by decide)

/-! ## Claim C2: the single-modality null sampler -/

/-- Identity key of the row at index i (default off the table). -/
def identAt [Inhabited K] (df : List (NRRow K)) (i : ℕ) : K :=
  ((df.get? i).map (fun r => r.ident)).getD default

theorem drawRows_map_ident [Inhabited K] (df : List (NRRow K)) (idxs : List ℕ)
    (h : ∀ i ∈ idxs, i < df.length) :
    (drawRows df idxs).map (fun r => r.ident) = idxs.map (identAt df) := by
  induction idxs with
  | nil => rfl
  | cons i t ih =>
      have hi : i < df.length := h i (by simp)
      have hg : df.get? i = some (df.get ⟨i, hi⟩) := List.get?_eq_get hi
      rw [drawRows, List.filterMap_cons, hg]
      rw [List.map_cons, List.map_cons]
      refine congrArg₂ _ ?_ ?_
      · rw [identAt, hg]; rfl
      · exact ih (fun j hj => h j (by simp [hj]))

theorem dedup_length_eq_iff [DecidableEq α] (l : List α) :
    l.dedup.length = l.length ↔ l.Nodup := by
  constructor
  · intro h
    have he := (List.dedup_sublist l).eq_of_length h
    rw [← he]; exact l.nodup_dedup
  · intro h; rw [List.dedup_eq_self.mpr h]

theorem identAt_eq_getElem [Inhabited K] (df : List (NRRow K)) (i : ℕ) (_h : i < df.length) :
    identAt df i = (df.map (fun r => r.ident)).getD i default := by
  rw [identAt, List.getD_eq_getElem?_getD, List.getElem?_map, ← List.get?_eq_getElem?]

theorem nr_foldl_frozen [DecidableEq K] (sq : ℚ → ℚ) (df : List (NRRow K)) (n k : ℕ)
    (draws : List (List ℕ)) (acc : List (Option ℚ)) (h : ¬ acc.length < n) :
    draws.foldl (nrStep sq df n k) acc = acc := by
  induction draws with
  | nil => rfl
  | cons d t ih => rw [List.foldl_cons, nrStep, if_neg h]; exact ih

theorem nr_foldl_length [DecidableEq K] (sq : ℚ → ℚ) (df : List (NRRow K)) (n k : ℕ) :
    ∀ (draws : List (List ℕ)) (acc : List (Option ℚ)),
      acc.length ≤ n → n ≤ acc.length + draws.countP (nrAccept df k) →
      (draws.foldl (nrStep sq df n k) acc).length = n := by
  intro draws
  induction draws with
  | nil =>
      intro acc h1 h2
      simp only [List.countP_nil, Nat.add_zero] at h2
      simpa using Nat.le_antisymm h1 h2
  | cons d t ih =>
      intro acc h1 h2
      rw [List.foldl_cons]
      by_cases hlt : acc.length < n
      · rw [nrStep, if_pos hlt]
        by_cases hacc : nrAccept df k d
        · rw [if_pos hacc]
          refine ih (acc ++ [nrStat sq (drawRows df d)]) ?_ ?_
          · simp; omega
          · rw [List.countP_cons_of_pos _ _ hacc] at h2
            simp; omega
        · rw [if_neg hacc]
          refine ih acc h1 ?_
          rw [List.countP_cons_of_neg _ _ (by simpa using hacc)] at h2
          exact h2
      · have hn : acc.length = n := Nat.le_antisymm h1 (Nat.le_of_not_lt hlt)
        rw [nrStep, if_neg hlt, nr_foldl_frozen sq df n k t acc hlt]
        exact hn

/-- C2 (amended): for a table whose rows all carry distinct identity
values, a draw of the null sampler is accepted iff the drawn row INDICES
are pairwise distinct -- random.choices samples indices with replacement,
so a draw that repeats a row is rejected even though all identities are
distinct; and whenever the supplied draws contain at least sample_count
accepted ones, the returned null distribution has length exactly
sample_count. -/
theorem corr_between_non_replicates_amended [DecidableEq K] [Inhabited K]
    (sq : ℚ → ℚ) (df : List (NRRow K)) (n_samples n_replicates : ℕ)
    (hident : (df.map (fun r => r.ident)).Nodup)
    (_hn : 1 ≤ n_samples) (_hk : 2 ≤ n_replicates) :
    (∀ idxs : List ℕ, idxs.length = n_replicates → (∀ i ∈ idxs, i < df.length) →
        (nrAccept df n_replicates idxs = true ↔ idxs.Nodup))
    ∧ (∀ draws : List (List ℕ),
        n_samples ≤ draws.countP (nrAccept df n_replicates) →
        (corr_between_non_replicates sq df n_samples n_replicates draws).length = n_samples) := by
  constructor
  · intro idxs hlen hvalid
    rw [nrAccept, drawRows_map_ident df idxs hvalid, beq_iff_eq, ← hlen,
      ← List.length_map idxs (identAt df), dedup_length_eq_iff]
    constructor
    · exact fun hm => hm.of_map (identAt df)
    · intro hnd
      refine hnd.map_on ?_
      intro i hi j hj hij
      have hi2 : i < df.length := hvalid i hi
      have hj2 : j < df.length := hvalid j hj
      rw [identAt_eq_getElem df i hi2, identAt_eq_getElem df j hj2] at hij
      have hi3 : i < (df.map (fun r => r.ident)).length := by simpa using hi2
      have hj3 : j < (df.map (fun r => r.ident)).length := by simpa using hj2
      rw [List.getD_eq_getElem _ _ hi3, List.getD_eq_getElem _ _ hj3] at hij
      exact (hident.getElem_inj_iff).mp hij
  · intro draws hcount
    exact nr_foldl_length sq df n_samples n_replicates draws [] (Nat.zero_le _)
      (by simpa using hcount)

/-- Concrete two-row table with distinct identities. -/
def df2c : List (NRRow ℕ) := [⟨0, [1, 2]⟩, ⟨1, [3, 4]⟩]

/-- Witness for C2 (amended) at the concrete table. -/
theorem corr_between_non_replicates_amended_witness :
    (nrAccept df2c 2 [1, 0] = true ↔ ([1, 0] : List ℕ).Nodup)
    ∧ (corr_between_non_replicates Rat.sqrt df2c 2 2 [[0, 0], [0, 1], [1, 0], [1, 1]]).length = 2 :=
  ⟨(corr_between_non_replicates_amended Rat.sqrt df2c 2 2 (by decide) (by decide)
      (by decide)).1 [1, 0] (by decide) (by decide),
   (corr_between_non_replicates_amended Rat.sqrt df2c 2 2 (by decide) (by decide)
      (by decide)).2 [[0, 0], [0, 1], [1, 0], [1, 1]] (by decide)⟩

/-- C2 counterexample: all identities of the table are distinct, yet the
draw of random.choices under the constantly-0 stream repeats row 0, has
one distinct identity instead of two, and is rejected: the rejection
branch IS taken on a first attempt. -/
theorem nr_first_draw_rejected_counterexample :
    (df2c.map (fun r => r.ident)).Nodup
    ∧ nrDraw df2c 2 (fun _ => 0) 0 = [0, 0]
    ∧ (∀ i ∈ nrDraw df2c 2 (fun _ => 0) 0, i < df2c.length)
    ∧ nrAccept df2c 2 (nrDraw df2c 2 (fun _ => 0) 0) = false := by
  exact ⟨by decide, by decide, by decide, by decide⟩

/-! ## Claim C1: the cross-modality null sampler draws -/

theorem uniqueFirst_nodup [DecidableEq α] (l : List α) : (uniqueFirst l).Nodup := by
  suffices h : ∀ (t : List α) (acc : List α), acc.Nodup →
      (t.foldl (fun acc x => if x ∈ acc then acc else acc ++ [x]) acc).Nodup by
    exact h l [] List.nodup_nil
  intro t
  induction t with
  | nil => intro acc ha; exact ha
  | cons x xs ih =>
      intro acc ha
      rw [List.foldl_cons]
      by_cases hx : x ∈ acc
      · rw [if_pos hx]; exact ih acc ha
      · rw [if_neg hx]
        refine ih _ ?_
        rw [List.nodup_append]
        exact ⟨ha, List.nodup_singleton x, by
          intro a haa hax
          rw [List.mem_singleton] at hax
          exact hx (hax ▸ haa)⟩

theorem commonGroups_nodup [DecidableEq K] [LinearOrder K] (m1df m2df : List (ModRow K)) :
    (commonGroups m1df m2df).Nodup := by
  rw [commonGroups]
  exact (List.perm_insertionSort _ _).nodup_iff.mpr ((uniqueFirst_nodup _).filter _)

/-- C1 (amended): each iteration of null_correlation_between_modalities
draws its two common-key values independently with replacement
(random.choices with k=2): the two picked values are equal exactly when
the two sampled indices agree modulo the number of common keys, so they
are NOT always distinct -- in particular every pair of tables with at
least one common key admits a stream under which the two picks coincide
and the null draw correlates samples sharing a common key. -/
theorem modality_draw_can_repeat [DecidableEq K] [LinearOrder K] [Inhabited K]
    (m1df m2df : List (ModRow K)) (s : ℕ → ℕ) (i : ℕ)
    (hne : commonGroups m1df m2df ≠ []) :
    ((modalityDrawPair (commonGroups m1df m2df) s i).1
        = (modalityDrawPair (commonGroups m1df m2df) s i).2
      ↔ s (2 * i) % (commonGroups m1df m2df).length
        = s (2 * i + 1) % (commonGroups m1df m2df).length)
    ∧ ∃ z : ℕ → ℕ, (modalityDrawPair (commonGroups m1df m2df) z i).1
        = (modalityDrawPair (commonGroups m1df m2df) z i).2 := by
  have hlen : 0 < (commonGroups m1df m2df).length := List.length_pos.mpr hne
  have hmod1 : s (2 * i) % (commonGroups m1df m2df).length < (commonGroups m1df m2df).length :=
    Nat.mod_lt _ hlen
  have hmod2 : s (2 * i + 1) % (commonGroups m1df m2df).length < (commonGroups m1df m2df).length :=
    Nat.mod_lt _ hlen
  constructor
  · rw [modalityDrawPair, List.getD_eq_getElem _ _ hmod1, List.getD_eq_getElem _ _ hmod2]
    exact (commonGroups_nodup m1df m2df).getElem_inj_iff
  · refine ⟨fun _ => 0, ?_⟩
    rw [modalityDrawPair]

/-- Concrete modality tables sharing the common keys 0 and 1. -/
def tblMod1 : List (ModRow ℕ) :=
  [⟨("A"), 0, ("x"), [1, 2]⟩, ⟨("A"), 1, ("w"), [1, 2]⟩]

/-- Second concrete modality table. -/
def tblMod2 : List (ModRow ℕ) :=
  [⟨("B"), 0, ("y"), [1, 2]⟩, ⟨("B"), 1, ("v"), [1, 2]⟩]

/-- Witness for C1 (amended) at the concrete tables and identity stream. -/
theorem modality_draw_can_repeat_witness :
    (((modalityDrawPair (commonGroups tblMod1 tblMod2) (fun j => j) 0).1
        = (modalityDrawPair (commonGroups tblMod1 tblMod2) (fun j => j) 0).2
      ↔ (fun j => j) (2 * 0) % (commonGroups tblMod1 tblMod2).length
        = (fun j => j) (2 * 0 + 1) % (commonGroups tblMod1 tblMod2).length)
    ∧ ∃ z : ℕ → ℕ, (modalityDrawPair (commonGroups tblMod1 tblMod2) z 0).1
        = (modalityDrawPair (commonGroups tblMod1 tblMod2) z 0).2) :=
  modality_draw_can_repeat tblMod1 tblMod2 (fun j => j) 0 (by decide)

/-- C1 counterexample: although the two tables share TWO distinct common
keys, the draw of random.choices under the constantly-0 stream picks the
same common-key value for both modality selections, so the two picks are
not distinct. -/
theorem modality_draw_equal_counterexample :
    (commonGroups tblMod1 tblMod2).length = 2
    ∧ (modalityDrawPair (commonGroups tblMod1 tblMod2) (fun _ => 0) 0).1
        = (modalityDrawPair (commonGroups tblMod1 tblMod2) (fun _ => 0) 0).2 := by
  exact ⟨by decide, by decide⟩

/-! ## Claim C6: the replicate correlation statistic -/

theorem set_none_eraseIdx_filterMap (row : List (Option ℚ)) :
    ∀ i : ℕ, (row.set i none).filterMap id = (row.eraseIdx i).filterMap id := by
  induction row with
  | nil => intro i; rfl
  | cons a t ih =>
      intro i
      cases i with
      | zero => simp [List.filterMap_cons]
      | succ j =>
          rw [List.set_cons_succ, List.eraseIdx_cons_succ, List.filterMap_cons,
            List.filterMap_cons]
          cases a with
          | none => exact ih j
          | some q => rw [ih j]

theorem fill_off_filterMap (M : List (List (Option ℚ))) :
    ∀ i : ℕ, ((fillDiagGo M i).flatten).filterMap id = ((offDiagGo M i).flatten).filterMap id := by
  induction M with
  | nil => intro i; rfl
  | cons r rs ih =>
      intro i
      rw [fillDiagGo, offDiagGo, List.flatten_cons, List.flatten_cons,
        List.filterMap_append, List.filterMap_append, set_none_eraseIdx_filterMap, ih]

theorem nanmedianL_congr {l1 l2 : List (Option ℚ)} (h : l1.filterMap id = l2.filterMap id) :
    nanmedianL l1 = nanmedianL l2 := by
  rw [nanmedianL, nanmedianL, h]

theorem zipWith_mul_self (c : List ℚ) :
    List.zipWith (fun x y => x * y) c c = c.map (fun x => x * x) := by
  induction c with
  | nil => rfl
  | cons a t ih => rw [List.zipWith_cons_cons, List.map_cons, ih]

theorem dotL_self_nonneg (c : List ℚ) : 0 ≤ dotL c c := by
  rw [dotL, zipWith_mul_self]
  refine List.sum_nonneg ?_
  intro x hx
  obtain ⟨y, _, rfl⟩ := List.mem_map.mp hx
  exact mul_self_nonneg y

theorem sum_sq_eq_zero {l : List ℚ} (h : (l.map (fun x => x * x)).sum = 0) :
    ∀ x ∈ l, x = 0 := by
  induction l with
  | nil => intro x hx; exact absurd hx (List.not_mem_nil x)
  | cons a t ih =>
      rw [List.map_cons, List.sum_cons] at h
      have ht : 0 ≤ (t.map (fun x => x * x)).sum :=
        List.sum_nonneg (fun x hx => by
          obtain ⟨y, _, rfl⟩ := List.mem_map.mp hx
          exact mul_self_nonneg y)
      have ha : a * a = 0 := le_antisymm (by nlinarith [mul_self_nonneg a]) (mul_self_nonneg a)
      intro x hx
      rcases List.mem_cons.mp hx with rfl | hx2
      · exact mul_self_eq_zero.mp ha
      · exact ih (by nlinarith [mul_self_nonneg a]) x hx2

/-- A non-constant vector has non-zero centered sum of squares. -/
theorem dotL_centered_ne_zero {v : List ℚ} {a b : ℚ} (ha : a ∈ v) (hb : b ∈ v) (hab : a ≠ b) :
    dotL (centeredL v) (centeredL v) ≠ 0 := by
  intro h0
  rw [dotL, zipWith_mul_self] at h0
  have hz := sum_sq_eq_zero h0
  have hA : a - listMean v = 0 := hz _ (by rw [centeredL]; exact List.mem_map.mpr ⟨a, ha, rfl⟩)
  have hB : b - listMean v = 0 := hz _ (by rw [centeredL]; exact List.mem_map.mpr ⟨b, hb, rfl⟩)
  exact hab (by linarith)

/-- The correlation of a non-constant vector with itself is exactly 1. -/
theorem corrcoefEntry_self {sq : ℚ → ℚ} (hsq : ∀ q : ℚ, 0 ≤ q → sq (q * q) = q)
    {v : List ℚ} {a b : ℚ} (ha : a ∈ v) (hb : b ∈ v) (hab : a ≠ b) :
    corrcoefEntry sq v v = some 1 := by
  have hdx := dotL_centered_ne_zero ha hb hab
  rw [corrcoefEntry, pearsonOpt]
  simp only [hdx, or_self, if_false]
  rw [hsq _ (dotL_self_nonneg _), div_self hdx]
  norm_num

theorem medianQ_const {l : List ℚ} {c : ℚ} (hne : l ≠ []) (hall : ∀ x ∈ l, x = c) :
    medianQ l = c := by
  have hperm := List.perm_insertionSort (fun a b : ℚ => a ≤ b) l
  have hs : ∀ x ∈ List.insertionSort (fun a b : ℚ => a ≤ b) l, x = c :=
    fun x hx => hall x (hperm.mem_iff.mp hx)
  have hlen : (List.insertionSort (fun a b : ℚ => a ≤ b) l).length = l.length :=
    hperm.length_eq
  have hpos : 0 < l.length := List.length_pos.mpr hne
  have hget : ∀ i : ℕ, i < l.length →
      (List.insertionSort (fun a b : ℚ => a ≤ b) l).getD i 0 = c := by
    intro i hi
    have hi2 : i < (List.insertionSort (fun a b : ℚ => a ≤ b) l).length := by omega
    rw [List.getD_eq_getElem _ _ hi2]
    exact hs _ (List.getElem_mem hi2)
  rw [medianQ]
  by_cases hodd : l.length % 2 = 1
  · rw [if_pos hodd, hget _ (Nat.div_lt_self hpos one_lt_two)]
  · rw [if_neg hodd]
    have h2 : 2 ≤ l.length := by omega
    rw [hget _ (by omega), hget _ (Nat.div_lt_self hpos one_lt_two)]
    ring

theorem mem_fillDiagGo {M : List (List (Option ℚ))} {row2 : List (Option ℚ)} :
    ∀ {i : ℕ}, row2 ∈ fillDiagGo M i → ∃ row ∈ M, ∃ j, row2 = row.set j none := by
  induction M with
  | nil => intro i h; exact absurd h (List.not_mem_nil row2)
  | cons r rs ih =>
      intro i h
      rw [fillDiagGo] at h
      rcases List.mem_cons.mp h with rfl | h2
      · exact ⟨r, by simp, i, rfl⟩
      · obtain ⟨row, hrow, j, hj⟩ := ih h2
        exact ⟨row, by simp [hrow], j, hj⟩

theorem one_mem_filterMap_fillDiag_replicate (n : ℕ) (hn : 2 ≤ n) :
    (1 : ℚ) ∈ ((fillDiagGo (List.replicate n (List.replicate n (some (1 : ℚ)))) 0).flatten).filterMap id := by
  obtain ⟨m, rfl⟩ : ∃ m, n = m + 2 := ⟨n - 2, by omega⟩
  rw [List.replicate_succ, fillDiagGo, List.flatten_cons, List.filterMap_append]
  refine List.mem_append.mpr (Or.inl ?_)
  rw [List.replicate_succ, List.set_cons_zero, List.filterMap_cons]
  exact List.mem_filterMap.mpr ⟨some 1, List.mem_replicate.mpr ⟨by omega, rfl⟩, rfl⟩

theorem replicateStat_identical {sq : ℚ → ℚ} (hsq : ∀ q : ℚ, 0 ≤ q → sq (q * q) = q)
    (group : List (RepRow K)) (v : List ℚ) (hlen : 2 ≤ group.length)
    (hfeats : ∀ r ∈ group, r.feats = v) {a b : ℚ} (ha : a ∈ v) (hb : b ∈ v) (hab : a ≠ b) :
    replicateStat sq group = some 1 := by
  have hrep : group.map (fun r => r.feats) = List.replicate group.length v :=
    List.eq_replicate_iff.mpr ⟨by simp, fun x hx => by
      obtain ⟨r, hr, rfl⟩ := List.mem_map.mp hx; exact hfeats r hr⟩
  have hM : corrcoefM sq (List.replicate group.length v)
      = List.replicate group.length (List.replicate group.length (some (1 : ℚ))) := by
    rw [corrcoefM, List.map_replicate, List.map_replicate, corrcoefEntry_self hsq ha hb hab]
  rw [replicateStat, if_neg (by omega), hrep, fillDiagNaN, hM]
  have hone := one_mem_filterMap_fillDiag_replicate group.length hlen
  have hall : ∀ x ∈ ((fillDiagGo (List.replicate group.length
      (List.replicate group.length (some (1 : ℚ)))) 0).flatten).filterMap id, x = (1 : ℚ) := by
    intro x hx
    obtain ⟨o, ho, hox⟩ := List.mem_filterMap.mp hx
    obtain ⟨row2, hrow2, hor⟩ := List.mem_flatten.mp ho
    obtain ⟨row, hrowM, j, rfl⟩ := mem_fillDiagGo hrow2
    have hrow1 : row = List.replicate group.length (some (1 : ℚ)) :=
      List.eq_of_mem_replicate hrowM
    rcases List.mem_or_eq_of_mem_set hor with hmem | rfl
    · rw [hrow1] at hmem
      have ho1 := List.eq_of_mem_replicate hmem
      rw [ho1] at hox
      exact (Option.some_injective ℚ hox).symm
    · exact absurd hox (by simp)
  dsimp only [nanmedianL]
  rw [if_neg (List.ne_nil_of_mem hone)]
  rw [medianQ_const (List.ne_nil_of_mem hone) hall]

theorem replicateStat_eq_spec (sq : ℚ → ℚ) (group : List (RepRow K)) :
    replicateStat sq group = specReplicateStat sq group := by
  rw [replicateStat, specReplicateStat]
  by_cases h : group.length = 1
  · rw [if_pos h, if_pos h]
  · rw [if_neg h, if_neg h, fillDiagNaN]
    exact nanmedianL_congr (fill_off_filterMap _ 0)

/-- C6: corr_between_replicates returns one statistic per group; a group
with one row yields NaN, a group of at least two identical non-constant
feature vectors yields exactly 1, and in general each group's statistic
is the NaN-ignoring median of the off-diagonal entries of the group's
pairwise Pearson correlation matrix with the diagonal excluded. -/
theorem corr_between_replicates_spec [DecidableEq K] [LinearOrder K]
    (sq : ℚ → ℚ) (hsq : ∀ q : ℚ, 0 ≤ q → sq (q * q) = q) (df : List (RepRow K)) :
    corr_between_replicates sq df
        = (groupKeys df).map (fun k => specReplicateStat sq (groupRows df k))
    ∧ (∀ k : K, (groupRows df k).length = 1 → replicateStat sq (groupRows df k) = none)
    ∧ (∀ (k : K) (v : List ℚ), 2 ≤ (groupRows df k).length →
        (∀ r ∈ groupRows df k, r.feats = v) → (∃ a ∈ v, ∃ b ∈ v, a ≠ b) →
        replicateStat sq (groupRows df k) = some 1) := by
  refine ⟨?_, ?_, ?_⟩
  · rw [corr_between_replicates]
    exact List.map_congr_left (fun k _ => replicateStat_eq_spec sq (groupRows df k))
  · intro k h
    rw [replicateStat, if_pos h]
  · rintro k v hlen hf ⟨a, ha, b, hb, hab⟩
    exact replicateStat_identical hsq _ v hlen hf ha hb hab

/-- Concrete table for the C6 witness: key 0 has one row, key 1 has two
identical non-constant rows. -/
def dfRep : List (RepRow ℕ) := [⟨0, [1, 2]⟩, ⟨1, [1, 2]⟩, ⟨1, [1, 2]⟩]

/-- Witness for C6 at the concrete table, instantiating sq by Rat.sqrt. -/
theorem corr_between_replicates_spec_witness :
    corr_between_replicates Rat.sqrt dfRep
        = (groupKeys dfRep).map (fun k => specReplicateStat Rat.sqrt (groupRows dfRep k))
    ∧ replicateStat Rat.sqrt (groupRows dfRep 0) = none
    ∧ replicateStat Rat.sqrt (groupRows dfRep 1) = some 1 :=
  ⟨(corr_between_replicates_spec Rat.sqrt ratSqrt_mul_self dfRep).1,
   (corr_between_replicates_spec Rat.sqrt ratSqrt_mul_self dfRep).2.1 0 (by decide),
   (corr_between_replicates_spec Rat.sqrt ratSqrt_mul_self dfRep).2.2 1 [1, 2] (by decide)
     (by decide) ⟨1, by decide, 2, by decide, by decide⟩⟩

/-! ## Claim C8: transform error behavior -/

theorem mapM_except_ok {α β : Type} (f : α → Except String β) (P : β → Prop) :
    ∀ l : List α, (∀ a ∈ l, ∃ b, f a = Except.ok b ∧ P b) →
      ∃ bl, l.mapM f = Except.ok bl ∧ bl.length = l.length ∧ ∀ b ∈ bl, P b := by
  intro l
  induction l with
  | nil =>
      intro _
      exact ⟨[], rfl, rfl, fun b hb => absurd hb (List.not_mem_nil b)⟩
  | cons a t ih =>
      intro h
      obtain ⟨b, hb, hPb⟩ := h a (by simp)
      obtain ⟨bl, hbl, hlen, hP⟩ := ih (fun x hx => h x (by simp [hx]))
      refine ⟨b :: bl, ?_, by simp [hlen], ?_⟩
      · rw [List.mapM_cons, hb, hbl]; rfl
      · intro c hc
        rcases List.mem_cons.mp hc with rfl | hc2
        · exact hPb
        · exact hP c hc2

theorem mapM_except_err_head {α β : Type} (f : α → Except String β) (a : α) (t : List α)
    (e : String) (h : f a = Except.error e) : (a :: t).mapM f = Except.error e := by
  rw [List.mapM_cons, h]; rfl

theorem rowSub_ok (r m : List ℚ) (h : r.length = m.length ∨ r.length = 1) :
    ∃ out, rowSub r m = Except.ok out ∧ out.length = m.length := by
  by_cases h2 : r.length = m.length
  · exact ⟨_, by rw [rowSub, if_pos h2], by rw [List.length_zipWith, h2, Nat.min_self]⟩
  · have h1 : r.length = 1 := h.resolve_left h2
    exact ⟨_, by rw [rowSub, if_neg h2, if_pos h1], by rw [List.length_map]⟩

theorem rowSub_err (r m : List ℚ) (h1 : r.length ≠ m.length) (h2 : r.length ≠ 1)
    (h3 : m.length ≠ 1) : rowSub r m = Except.error ("broadcast") := by
  rw [rowSub, if_neg h1, if_neg h2, if_neg h3]

theorem npDot_ok (A B : Mat) (h : ∀ r ∈ A, r.length = B.length) :
    npDot A B = Except.ok (matMul A B) := by
  rw [npDot, if_pos]
  rw [List.all_eq_true]
  intro r hr
  exact beq_iff_eq.mpr (h r hr)

theorem npDot_err_head (r : List ℚ) (A B : Mat) (h : r.length ≠ B.length) :
    npDot (r :: A) B = Except.error ("shapes") := by
  rw [npDot, if_neg]
  rw [List.all_cons]
  simp [h]

theorem matMul_length (A B : Mat) : (matMul A B).length = A.length := by
  rw [matMul, List.length_map]

theorem matMul_row_width (A B : Mat) : ∀ r ∈ matMul A B, r.length = (transposeM B).length := by
  intro r hr
  rw [matMul] at hr
  obtain ⟨x, _, rfl⟩ := List.mem_map.mp hr
  rw [List.length_map]

theorem transposeM_length (B : Mat) : (transposeM B).length = (B.headD []).length := by
  rw [transposeM, List.length_map, List.length_range]

/-- C8 (amended): calling transform before fit fails with the "not fitted"
error; but transform does NO shape validation of its own: for a fitted
state of dimension d (at least 1) and a non-empty rectangular input of
width k, transform returns a value iff k = d or k = 1 -- a one-column
input is silently broadcast against the mean vector instead of failing,
and only the remaining mismatches surface as broadcast/shape errors. -/
theorem ZCA_transform_error_behavior :
    (∀ X : Mat, ZCA_transform none X = Except.error ("not fitted"))
    ∧ (∀ (z : ZCAState) (X : Mat) (d k : ℕ),
        z.mean_.length = d → z.sphere_.length = d → (∀ r ∈ z.sphere_, r.length = d) →
        1 ≤ d → X ≠ [] → (∀ r ∈ X, r.length = k) →
        ((∃ out, ZCA_transform (some z) X = Except.ok out) ↔ (k = d ∨ k = 1))) := by
  constructor
  · intro X; rfl
  · intro z X d k hm hs1 hs2 hd hX hXr
    have hBlen : (transposeM z.sphere_).length = d := by
      rw [transposeM_length]
      obtain ⟨r0, rs, hzs⟩ : ∃ r0 rs, z.sphere_ = r0 :: rs := by
        cases hzs : z.sphere_ with
        | nil => rw [hzs] at hs1; simp at hs1; omega
        | cons r0 rs => exact ⟨r0, rs, rfl⟩
      rw [hzs, List.headD_cons]
      exact hs2 r0 (by rw [hzs]; exact List.mem_cons_self r0 rs)
    constructor
    · rintro ⟨out, hout⟩
      by_contra hcon
      push_neg at hcon
      obtain ⟨hkd, hk1⟩ := hcon
      obtain ⟨r0, rs, rfl⟩ : ∃ r0 rs, X = r0 :: rs := by
        cases X with
        | nil => exact absurd rfl hX
        | cons r0 rs => exact ⟨r0, rs, rfl⟩
      have hr0 : r0.length = k := hXr r0 (List.mem_cons_self r0 rs)
      by_cases hd1 : d = 1
      · have hsub : ∀ r ∈ r0 :: rs, ∃ o, rowSub r z.mean_ = Except.ok o ∧ o.length = k := by
          intro r hr
          have hrk : r.length = k := hXr r hr
          have hne : r.length ≠ z.mean_.length := by rw [hrk, hm]; exact hkd
          refine ⟨_, by rw [rowSub, if_neg hne, if_neg (by rw [hrk]; exact hk1),
            if_pos (by rw [hm]; exact hd1)], by rw [List.length_map, hrk]⟩
        obtain ⟨Y, hY, hYlen, hYw⟩ := mapM_except_ok _ (fun o : List ℚ => o.length = k) _ hsub
        obtain ⟨y0, ys, hYc⟩ : ∃ y0 ys, Y = y0 :: ys := by
          cases Y with
          | nil => rw [List.length_nil] at hYlen; simp at hYlen
          | cons y0 ys => exact ⟨y0, ys, rfl⟩
        have hdot : npDot Y (transposeM z.sphere_) = Except.error ("shapes") := by
          rw [hYc]
          refine npDot_err_head y0 ys _ ?_
          rw [hYw y0 (by rw [hYc]; exact List.mem_cons_self y0 ys), hBlen]
          rw [hd1]; exact hk1
        rw [ZCA_transform] at hout
        rw [show npSub (r0 :: rs) z.mean_ = Except.ok Y from hY] at hout
        have hout2 : npDot Y (transposeM z.sphere_) = Except.ok out := hout
        rw [hdot] at hout2
        cases hout2
      · have herr : rowSub r0 z.mean_ = Except.error ("broadcast") :=
          rowSub_err r0 z.mean_ (by rw [hr0, hm]; exact hkd) (by rw [hr0]; exact hk1)
            (by rw [hm]; exact hd1)
        rw [ZCA_transform] at hout
        rw [show npSub (r0 :: rs) z.mean_ = Except.error ("broadcast") from
          mapM_except_err_head _ r0 rs _ herr] at hout
        cases hout
    · intro hk
      have hsub : ∀ r ∈ X, ∃ o, rowSub r z.mean_ = Except.ok o ∧ o.length = z.mean_.length := by
        intro r hr
        refine rowSub_ok r z.mean_ ?_
        rcases hk with hk | hk
        · exact Or.inl (by rw [hXr r hr, hk, hm])
        · exact Or.inr (by rw [hXr r hr, hk])
      obtain ⟨Y, hY, _, hYw⟩ := mapM_except_ok _ (fun o : List ℚ => o.length = z.mean_.length) _ hsub
      refine ⟨matMul Y (transposeM z.sphere_), ?_⟩
      rw [ZCA_transform]
      rw [show npSub X z.mean_ = Except.ok Y from hY]
      show npDot Y (transposeM z.sphere_) = Except.ok (matMul Y (transposeM z.sphere_))
      exact npDot_ok Y _ (fun r hr => by rw [hYw r hr, hm, hBlen])

/-- Witness for C8 (amended): a fitted 2-dimensional state transforms a
2-column input (and, per the counterexample, also a 1-column one). -/
theorem ZCA_transform_error_behavior_witness :
    ∃ out, ZCA_transform (some ⟨[0, 0], [[1, 0], [0, 1]]⟩) [[(5 : ℚ), 6]] = Except.ok out :=
  ((ZCA_transform_error_behavior.2 ⟨[0, 0], [[1, 0], [0, 1]]⟩ [[(5 : ℚ), 6]] 2 2
    (by decide) (by decide) (by decide) (by decide) (by decide) (by decide)).mpr (Or.inl rfl))

/-- C8 counterexample: transforming a 1-column matrix through a fitted
2-dimensional state does NOT fail: numpy broadcasting stretches the single
column against the mean vector and a value is returned. -/
theorem ZCA_transform_shape_mismatch_counterexample :
    (([[(5 : ℚ)]].headD []).length ≠ (⟨[0, 0], [[1, 0], [0, 1]]⟩ : ZCAState).mean_.length)
    ∧ ∃ out, ZCA_transform (some ⟨[0, 0], [[1, 0], [0, 1]]⟩) [[(5 : ℚ)]] = Except.ok out :=
  ⟨by decide, ⟨_, rfl⟩⟩

/-! ## Claim C5: the whitening matrix formula -/

theorem getD_map_lt {α β : Type} (f : α → β) (l : List α) (i : ℕ) (h : i < l.length)
    (d : β) (d2 : α) : (l.map f).getD i d = f (l.getD i d2) := by
  rw [List.getD_eq_getElem _ _ (by simpa using h), List.getD_eq_getElem _ _ h, List.getElem_map]

theorem transposeM_getD (X : Mat) (i : ℕ) (h : i < (X.headD []).length) :
    (transposeM X).getD i [] = colD X i := by
  rw [transposeM, getD_map_lt (colD X) _ i (by simpa using h) [] 0]
  congr 1
  rw [List.getD_eq_getElem _ _ (by simpa using h), List.getElem_range]

theorem diag_cov_eq (Xc : Mat) (c : ℚ) :
    diagOf ((matMul (transposeM Xc) Xc).map (fun r => r.map (fun x => x / c)))
      = (List.range ((Xc.headD []).length)).map
          (fun j => ((colD Xc j).map (fun x => x * x)).sum / c) := by
  have hlen : ((matMul (transposeM Xc) Xc).map (fun r => r.map (fun x => x / c))).length
      = (Xc.headD []).length := by
    rw [List.length_map, matMul_length, transposeM_length]
  rw [diagOf, hlen]
  refine List.map_congr_left ?_
  intro j hj
  have hjw : j < (Xc.headD []).length := List.mem_range.mp hj
  have hA : j < (transposeM Xc).length := by rw [transposeM_length]; exact hjw
  rw [getD_map_lt (fun r => r.map (fun x => x / c)) _ j (by rw [matMul_length]; exact hA) [] []]
  rw [matMul, getD_map_lt _ _ j hA [] []]
  rw [transposeM_getD Xc j hjw]
  rw [getD_map_lt (fun x => x / c) _ j
    (by rw [List.length_map, transposeM_length]; exact hjw) 0 0]
  rw [getD_map_lt (fun col => dotL (colD Xc j) col) _ j
    (by rw [transposeM_length]; exact hjw) 0 []]
  rw [transposeM_getD Xc j hjw]
  rw [dotL, zipWith_mul_self]

/-- C5: the whitening matrix stored by ZCA_corr.fit equals
G . diag(1/sqrt(T clipped below at the elbow singular value / 10)) . G^t
. diag(1/sqrt(per-feature variance clipped below at 1e-3)), where (G, T)
is the SVD of the NaN/Inf-zeroed Pearson correlation matrix of the
centered reference data and the variance divisor is n - 1 (the SVD, the
elbow locator and the square root enter both sides as the same oracles). -/
theorem ZCA_fit_sphere_matches_spec (sq : ℚ → ℚ) (svd : Mat → Mat × List ℚ)
    (elbow : List ℚ → ℕ) (X : Mat) (h2 : 2 ≤ X.length) :
    (ZCA_fit sq svd elbow X).sphere_ = specWhiteningMatrix sq svd elbow X := by
  obtain ⟨x0, xs, rfl⟩ : ∃ x0 xs, X = x0 :: xs := by
    cases X with
    | nil => exact absurd h2 (by decide)
    | cons a l => exact ⟨a, l, rfl⟩
  dsimp only [ZCA_fit, specWhiteningMatrix, estimate_regularization, clipFloor]
  simp only [List.map_map, Function.comp_def]
  rw [diag_cov_eq]
  have hw : ((List.map (fun r => List.zipWith (fun a b => a - b) r (colMeans (x0 :: xs)))
      (x0 :: xs)).headD []).length = x0.length := by
    rw [List.map_cons, List.headD_cons, List.length_zipWith, colMeans, List.length_map,
      transposeM_length, List.headD_cons, Nat.min_self]
  rw [hw, List.headD_cons]
  simp only [List.map_map, Function.comp_def]

/-- A trivial but well-shaped stand-in for the SVD oracle: the identity
basis together with all-one singular values. -/
def svdOracle : Mat → Mat × List ℚ := fun M =>
  ((List.range M.length).map (fun i => (List.range M.length).map
      (fun j => if i = j then 1 else 0)),
   List.replicate M.length 1)

/-- Witness for C5 at a concrete 2-row reference matrix. -/
theorem ZCA_fit_sphere_matches_spec_witness :
    2 ≤ ([[(1 : ℚ)], [3]] : Mat).length
    ∧ (ZCA_fit Rat.sqrt svdOracle (fun _ => 0) [[(1 : ℚ)], [3]]).sphere_
        = specWhiteningMatrix Rat.sqrt svdOracle (fun _ => 0) [[(1 : ℚ)], [3]] :=
  ⟨by decide, ZCA_fit_sphere_matches_spec Rat.sqrt svdOracle (fun _ => 0)
    [[(1 : ℚ)], [3]] (by decide)⟩

/-! ## Claim C4: the plate sphering frame property -/

theorem except_ok_bind {α β : Type} (a : α) (f : α → Except String β) :
    (Except.ok a >>= f) = f a := rfl

theorem colD_length (X : Mat) (j : ℕ) : (colD X j).length = X.length := by
  rw [colD, List.length_map]

theorem transposeM_row_width (X : Mat) : ∀ r ∈ transposeM X, r.length = X.length := by
  intro r hr
  rw [transposeM] at hr
  obtain ⟨j, _, rfl⟩ := List.mem_map.mp hr
  exact colD_length X j

theorem headD_length_eq {M : Mat} {f : ℕ} (h1 : M.length = f) (h2 : ∀ r ∈ M, r.length = f) :
    (M.headD []).length = f := by
  cases M with
  | nil => simpa using h1
  | cons r rs => rw [List.headD_cons]; exact h2 r (List.mem_cons_self r rs)

theorem diagM_length (v : List ℚ) : (diagM v).length = v.length := by
  rw [diagM, List.length_map, List.length_range]

theorem diagM_row_width (v : List ℚ) : ∀ r ∈ diagM v, r.length = v.length := by
  intro r hr
  rw [diagM] at hr
  obtain ⟨i, _, rfl⟩ := List.mem_map.mp hr
  rw [List.length_map, List.length_range]

theorem idxOf_append_of_notMem {α : Type} [DecidableEq α] {c : α} {l1 : List α}
    (l2 : List α) (h : c ∉ l1) : idxOf c (l1 ++ l2) = l1.length + idxOf c l2 := by
  induction l1 with
  | nil => simp
  | cons a t ih =>
      rw [List.cons_append, idxOf]
      have hac : ¬(a = c) := fun he => h (he ▸ List.mem_cons_self a t)
      rw [if_neg hac, ih (fun hm => h (List.mem_cons_of_mem a hm)), List.length_cons]
      omega

theorem getD_map_idxOf {α β : Type} [DecidableEq α] (g : α → β) (c : α) (d : β) :
    ∀ cs : List α, c ∈ cs → (cs.map g).getD (idxOf c cs) d = g c := by
  intro cs
  induction cs with
  | nil => intro hc; exact absurd hc (List.not_mem_nil c)
  | cons a t ih =>
      intro hc
      rw [List.map_cons, idxOf]
      by_cases hac : a = c
      · rw [if_pos hac, List.getD_cons_zero, hac]
      · rw [if_neg hac, List.getD_cons_succ]
        exact ih (by rcases List.mem_cons.mp hc with rfl | h2; exact absurd rfl hac; exact h2)

theorem featcols_metacols_perm (cols : List (List Char))
    (h : ∀ c ∈ cols, metaB.isPrefixOf c = true → metaU.isPrefixOf c = true) :
    (get_featurecols cols ++ get_metacols cols).Perm cols := by
  rw [get_featurecols, get_metacols]
  have hq : cols.filter (fun c => metaU.isPrefixOf c)
      = cols.filter (fun c => !(!(metaB.isPrefixOf c))) := by
    refine List.filter_congr ?_
    intro c hc
    rw [Bool.not_not]
    rcases Bool.eq_false_or_eq_true (metaU.isPrefixOf c) with hu | hu
    · rw [hu, metaU_imp_metaB hu]
    · rw [hu]
      rcases Bool.eq_false_or_eq_true (metaB.isPrefixOf c) with hb | hb
      · rw [h c hc hb] at hu
        exact absurd hu (by decide)
      · rw [hb]
  rw [hq]
  exact List.filter_append_perm (fun c => !(metaB.isPrefixOf c)) cols

theorem map_getD_zipWith_append (fl j : ℕ) :
    ∀ (as bs : List (List Val)), as.length = bs.length → (∀ a ∈ as, a.length = fl) →
    (List.zipWith (fun a b => a ++ b) as bs).map (fun r => r.getD (fl + j) Val.na)
      = bs.map (fun r => r.getD j Val.na) := by
  intro as
  induction as with
  | nil =>
      intro bs hlen _
      cases bs with
      | nil => rfl
      | cons b bt => simp at hlen
  | cons a at2 ih =>
      intro bs hlen ha
      cases bs with
      | nil => simp at hlen
      | cons b bt =>
          rw [List.zipWith_cons_cons, List.map_cons, List.map_cons]
          refine congrArg₂ _ ?_ ?_
          · rw [List.getD_append_right _ _ _ _ (by rw [ha a (by simp)]; omega),
              ha a (by simp)]
            congr 1
            omega
          · exact ih bt (by simpa using hlen) (fun x hx => ha x (by simp [hx]))

theorem zipWith_append_width (fl ml : ℕ) :
    ∀ (as bs : List (List Val)), (∀ a ∈ as, a.length = fl) → (∀ b ∈ bs, b.length = ml) →
    ∀ r ∈ List.zipWith (fun a b => a ++ b) as bs, r.length = fl + ml := by
  intro as
  induction as with
  | nil => intro bs _ _ r hr; simp at hr
  | cons a at2 ih =>
      intro bs ha hb r hr
      cases bs with
      | nil => simp at hr
      | cons b bt =>
          rw [List.zipWith_cons_cons] at hr
          rcases List.mem_cons.mp hr with rfl | hr2
          · rw [List.length_append, ha a (by simp), hb b (by simp)]
          · exact ih bt (fun x hx => ha x (by simp [hx])) (fun x hx => hb x (by simp [hx])) r hr2

theorem toMatE_ok (rows : List (List Val)) (fl : ℕ)
    (hw : ∀ r ∈ rows, r.length = fl)
    (h : ∀ r ∈ rows, ∀ v ∈ r, ∃ q, v = Val.num q) :
    ∃ M, toMatE rows = Except.ok M ∧ M.length = rows.length ∧ ∀ m ∈ M, m.length = fl := by
  rw [toMatE]
  refine mapM_except_ok _ (fun m : List ℚ => m.length = fl) rows ?_
  intro r hr
  have hin : ∀ v ∈ r, ∃ b, valToQ v = Except.ok b ∧ True := by
    intro v hv
    obtain ⟨q, rfl⟩ := h r hr v hv
    exact ⟨q, rfl, trivial⟩
  obtain ⟨qr, hqr, hqlen, _⟩ := mapM_except_ok _ (fun _ : ℚ => True) r hin
  refine ⟨qr, hqr, ?_⟩
  show qr.length = fl
  rw [hqlen]
  exact hw r hr

theorem corrMat_length (sq : ℚ → ℚ) (Xc : Mat) :
    (corrMat sq Xc).length = (transposeM Xc).length := by
  rw [corrMat, List.length_map]

theorem corrMat_row_width (sq : ℚ → ℚ) (Xc : Mat) :
    ∀ r ∈ corrMat sq Xc, r.length = (transposeM Xc).length := by
  intro r hr
  rw [corrMat] at hr
  obtain ⟨a, _, rfl⟩ := List.mem_map.mp hr
  rw [List.length_map]

/-- Shapes of the fitted state: on a non-empty reference block of width f
(with a well-shaped SVD oracle) the mean has length f and the whitening
matrix is f x f. -/
theorem ZCA_fit_shapes (sq : ℚ → ℚ) (svd : Mat → Mat × List ℚ) (elbow : List ℚ → ℕ)
    (X : Mat) (f : ℕ)
    (hsvd : ∀ M : Mat, (svd M).1.length = M.length
      ∧ (∀ r ∈ (svd M).1, r.length = M.length) ∧ (svd M).2.length = M.length)
    (hX : X ≠ []) (hXr : ∀ r ∈ X, r.length = f) :
    (ZCA_fit sq svd elbow X).mean_.length = f
    ∧ (ZCA_fit sq svd elbow X).sphere_.length = f
    ∧ ∀ r ∈ (ZCA_fit sq svd elbow X).sphere_, r.length = f := by
  obtain ⟨x0, xs, rfl⟩ : ∃ x0 xs, X = x0 :: xs := by
    cases X with
    | nil => exact absurd rfl hX
    | cons a l => exact ⟨a, l, rfl⟩
  have hw : ((x0 :: xs).headD []).length = f := by
    rw [List.headD_cons]; exact hXr x0 (by simp)
  have hmean : (colMeans (x0 :: xs)).length = f := by
    rw [colMeans, List.length_map, transposeM_length, hw]
  have hXcW : ((List.map (fun r => List.zipWith (fun a b => a - b) r (colMeans (x0 :: xs)))
      (x0 :: xs)).headD []).length = f := by
    rw [List.map_cons, List.headD_cons, List.length_zipWith, hmean, hXr x0 (by simp),
      Nat.min_self]
  have htX : (transposeM (List.map (fun r => List.zipWith (fun a b => a - b) r
      (colMeans (x0 :: xs))) (x0 :: xs))).length = f := by
    rw [transposeM_length, hXcW]
  have hcorr := corrMat_length sq (List.map (fun r => List.zipWith (fun a b => a - b) r
    (colMeans (x0 :: xs))) (x0 :: xs))
  obtain ⟨hG1, hG2, hT⟩ := hsvd (corrMat sq (List.map (fun r => List.zipWith
    (fun a b => a - b) r (colMeans (x0 :: xs))) (x0 :: xs)))
  have hVlen : (diagOf ((matMul (transposeM (List.map (fun r => List.zipWith
      (fun a b => a - b) r (colMeans (x0 :: xs))) (x0 :: xs)))
      (List.map (fun r => List.zipWith (fun a b => a - b) r (colMeans (x0 :: xs)))
        (x0 :: xs))).map (fun r => r.map (fun x => x / (((x0 :: xs).length : ℚ) - 1))))).length
      = f := by
    rw [diagOf, List.length_map, List.length_range, List.length_map, matMul_length, htX]
  refine ⟨hmean, ?_, ?_⟩
  · show (matMul (matMul (matMul _ _) _) _).length = f
    rw [matMul_length, matMul_length, matMul_length, hG1, hcorr, htX]
  · intro r hr
    have hwid := matMul_row_width _ _ r hr
    rw [hwid, transposeM_length, headD_length_eq (diagM_length _) (diagM_row_width _),
      List.length_map, clipFloor, List.length_map, hVlen]

theorem selectColsR_length (cols : List (List Char)) (rows : List (List Val))
    (cs : List (List Char)) : (selectColsR cols rows cs).length = rows.length := by
  rw [selectColsR, List.length_map]

theorem selectColsR_row_width (cols : List (List Char)) (rows : List (List Val))
    (cs : List (List Char)) : ∀ r ∈ selectColsR cols rows cs, r.length = cs.length := by
  intro r hr
  rw [selectColsR] at hr
  obtain ⟨row, _, rfl⟩ := List.mem_map.mp hr
  rw [List.length_map]

theorem selectColsR_num (t : PTable) (rows0 : List (List Val))
    (hsub : ∀ r ∈ rows0, r ∈ t.rows)
    (hnum : ∀ r ∈ t.rows, ∀ c ∈ get_featurecols t.cols,
        ∃ q, r.getD (idxOf c t.cols) Val.na = Val.num q) :
    ∀ r ∈ selectColsR t.cols rows0 (get_featurecols t.cols), ∀ v ∈ r, ∃ q, v = Val.num q := by
  intro r hr v hv
  rw [selectColsR] at hr
  obtain ⟨row, hrow, rfl⟩ := List.mem_map.mp hr
  obtain ⟨c, hc, rfl⟩ := List.mem_map.mp hv
  exact hnum row (hsub row hrow) c hc

/-- C4: for every plate table following the data-model conventions (no
column named with the bare "Metadata" prefix, numeric feature values, a
well-shaped SVD oracle) with a non-empty negative-control subset,
sphere_plate_zca_corr returns a table with the same number of rows and
columns, the same rectangular shape, the same row index, the same column
set (as a permutation; the reassembly lists features first), and
unchanged metadata-column values; only feature values are recomputed. -/
theorem sphere_plate_frame (sq : ℚ → ℚ) (svd : Mat → Mat × List ℚ) (elbow : List ℚ → ℕ)
    (t : PTable)
    (hsvd : ∀ M : Mat, (svd M).1.length = M.length
      ∧ (∀ r ∈ (svd M).1, r.length = M.length) ∧ (svd M).2.length = M.length)
    (hmeta : ∀ c ∈ t.cols, metaB.isPrefixOf c = true → metaU.isPrefixOf c = true)
    (hnum : ∀ r ∈ t.rows, ∀ c ∈ get_featurecols t.cols,
        ∃ q, r.getD (idxOf c t.cols) Val.na = Val.num q)
    (hneg : t.rows.filter
        (fun r => r.getD (idxOf ctlCol t.cols) Val.na == Val.str ("negcon")) ≠ []) :
    ∃ u, sphere_plate_zca_corr sq svd elbow t = Except.ok u
      ∧ u.rows.length = t.rows.length
      ∧ u.cols.length = t.cols.length
      ∧ (∀ r ∈ u.rows, r.length = u.cols.length)
      ∧ u.index = t.index
      ∧ u.cols.Perm t.cols
      ∧ ∀ c ∈ get_metacols t.cols, colValues u c = colValues t c := by
  obtain ⟨Md, hMd, hMdLen, hMdW⟩ := toMatE_ok
    (selectColsR t.cols (t.rows.filter
      (fun r => r.getD (idxOf ctlCol t.cols) Val.na == Val.str ("negcon")))
      (get_featurecols t.cols))
    (get_featurecols t.cols).length
    (selectColsR_row_width _ _ _)
    (selectColsR_num t _ (fun r hr => List.mem_of_mem_filter hr) hnum)
  obtain ⟨Ma, hMa, hMaLen, hMaW⟩ := toMatE_ok
    (selectColsR t.cols t.rows (get_featurecols t.cols))
    (get_featurecols t.cols).length
    (selectColsR_row_width _ _ _)
    (selectColsR_num t _ (fun r hr => hr) hnum)
  have hMdNe : Md ≠ [] := by
    intro h0
    rw [h0, List.length_nil, selectColsR_length] at hMdLen
    exact hneg (List.length_eq_zero.mp hMdLen.symm)
  obtain ⟨hfm, hfs1, hfs2⟩ := ZCA_fit_shapes sq svd elbow Md
    (get_featurecols t.cols).length hsvd hMdNe hMdW
  obtain ⟨Y, hY, hYLen, hYW⟩ := mapM_except_ok _
    (fun o : List ℚ => o.length = (ZCA_fit sq svd elbow Md).mean_.length) Ma
    (fun r hr => rowSub_ok _ _ (Or.inl (by rw [hMaW r hr, hfm])))
  have hBlen : (transposeM (ZCA_fit sq svd elbow Md).sphere_).length
      = (get_featurecols t.cols).length := by
    rw [transposeM_length, headD_length_eq hfs1 hfs2]
  have htrans : ZCA_transform (some (ZCA_fit sq svd elbow Md)) Ma
      = Except.ok (matMul Y (transposeM (ZCA_fit sq svd elbow Md).sphere_)) := by
    rw [ZCA_transform, show npSub Ma (ZCA_fit sq svd elbow Md).mean_ = Except.ok Y from hY]
    show npDot Y _ = _
    exact npDot_ok _ _ (fun r hr => by rw [hYW r hr, hfm, hBlen])
  have htw : ∀ r ∈ matMul Y (transposeM (ZCA_fit sq svd elbow Md).sphere_),
      r.length = (get_featurecols t.cols).length := by
    intro r hr
    have hh : ((transposeM (ZCA_fit sq svd elbow Md).sphere_).headD []).length
        = (get_featurecols t.cols).length :=
      headD_length_eq hBlen (fun r2 hr2 => (transposeM_row_width _ r2 hr2).trans hfs1)
    rw [matMul_row_width _ _ r hr, transposeM_length, hh]
  have hMatL : (matMul Y (transposeM (ZCA_fit sq svd elbow Md).sphere_)).length
      = t.rows.length := by
    rw [matMul_length, hYLen, hMaLen, selectColsR_length]
  have hperm := featcols_metacols_perm t.cols hmeta
  have hclen : (get_featurecols t.cols ++ get_metacols t.cols).length = t.cols.length :=
    hperm.length_eq
  have hcombLen : (List.zipWith (fun a b => a ++ b)
      ((matMul Y (transposeM (ZCA_fit sq svd elbow Md).sphere_)).map
        (fun r => r.map Val.num))
      (selectColsR t.cols t.rows (get_metacols t.cols))).length = t.rows.length := by
    rw [List.length_zipWith, List.length_map, hMatL, selectColsR_length, Nat.min_self]
  have hfeatW : ∀ a ∈ (matMul Y (transposeM (ZCA_fit sq svd elbow Md).sphere_)).map
      (fun r => r.map Val.num), a.length = (get_featurecols t.cols).length := by
    intro a ha
    obtain ⟨r, hr, rfl⟩ := List.mem_map.mp ha
    rw [List.length_map]
    exact htw r hr
  refine ⟨⟨get_featurecols t.cols ++ get_metacols t.cols, t.index,
    List.zipWith (fun a b => a ++ b)
      ((matMul Y (transposeM (ZCA_fit sq svd elbow Md).sphere_)).map
        (fun r => r.map Val.num))
      (selectColsR t.cols t.rows (get_metacols t.cols))⟩, ?_, ?_, ?_, ?_, rfl, hperm, ?_⟩
  · dsimp only [sphere_plate_zca_corr]
    rw [hMd, except_ok_bind, hMa, except_ok_bind, htrans, except_ok_bind]
    rw [if_pos ⟨hcombLen, hclen⟩]
  · exact hcombLen
  · exact hclen
  · intro r hr
    have := zipWith_append_width (get_featurecols t.cols).length
      (get_metacols t.cols).length _ _ hfeatW
      (selectColsR_row_width t.cols t.rows (get_metacols t.cols)) r hr
    rw [this, List.length_append]
  · intro c hc
    have hcu : metaU.isPrefixOf c = true := (List.mem_filter.mp hc).2
    have hcnotf : c ∉ get_featurecols t.cols := by
      intro hcf
      have hb := (List.mem_filter.mp hcf).2
      rw [metaU_imp_metaB hcu] at hb
      exact absurd hb (by decide)
    dsimp only [colValues]
    rw [idxOf_append_of_notMem _ hcnotf]
    rw [map_getD_zipWith_append (get_featurecols t.cols).length
      (idxOf c (get_metacols t.cols)) _ _
      (by rw [List.length_map, hMatL, selectColsR_length]) hfeatW]
    rw [selectColsR, List.map_map]
    refine List.map_congr_left ?_
    intro r _
    exact getD_map_idxOf (fun c2 => r.getD (idxOf c2 t.cols) Val.na) c Val.na
      (get_metacols t.cols) hc

theorem svdOracle_shapes : ∀ M : Mat, (svdOracle M).1.length = M.length
    ∧ (∀ r ∈ (svdOracle M).1, r.length = M.length) ∧ (svdOracle M).2.length = M.length := by
  intro M
  refine ⟨?_, ?_, ?_⟩
  · show ((List.range M.length).map _).length = M.length
    rw [List.length_map, List.length_range]
  · intro r hr
    obtain ⟨i, _, rfl⟩ := List.mem_map.mp hr
    rw [List.length_map, List.length_range]
  · show (List.replicate M.length (1 : ℚ)).length = M.length
    rw [List.length_replicate]

/-- Concrete plate for the C4 witness: one metadata column, one feature
column, one negcon row and one treated row. -/
def plateW : PTable :=
  { cols := [ctlCol, ("f1").toList],
    index := [0, 1],
    rows := [[Val.str ("negcon"), Val.num 1], [Val.str ("trt"), Val.num 2]] }

/-- Witness for C4 at the concrete plate. -/
theorem sphere_plate_frame_witness :
    ∃ u, sphere_plate_zca_corr Rat.sqrt svdOracle (fun _ => 0) plateW = Except.ok u
      ∧ u.rows.length = plateW.rows.length
      ∧ u.cols.length = plateW.cols.length
      ∧ (∀ r ∈ u.rows, r.length = u.cols.length)
      ∧ u.index = plateW.index
      ∧ u.cols.Perm plateW.cols
      ∧ ∀ c ∈ get_metacols plateW.cols, colValues u c = colValues plateW c :=
  sphere_plate_frame Rat.sqrt svdOracle (fun _ => 0) plateW svdOracle_shapes
    (by decide)
    (by intro r hr c hc; fin_cases hr <;> fin_cases hc <;> exact ⟨_, rfl⟩)
    (by decide)
